import Mathlib

/-!
# Verification of the ME498-GUI output-parsing and column-inference engine

Shallow embedding of the numeric-table loader and the column role
inference engine of `src/brdfplot.py`, together with the post-execution
tail of `run_brdfprog` in `src/brdf_form.py`.

Modelling conventions:
* Python floats are modelled by `PFloat`: an exact rational for finite
  values, plus explicit `inf`/`nan` constructors (`numpy.nan` is both the
  table's missing-value marker and a possible parsed value, exactly as in
  the code, where the table is pre-filled with `np.nan`).
* Real arithmetic is carried out in `ℚ`; all concrete inputs used in
  witnesses and counterexamples have values exactly representable in
  binary64, where Python's arithmetic agrees with `ℚ`.
* Text lines are `List Char`; Python's `float()` token parser is an
  abstract parameter `pf : List Char → Option PFloat` in the general
  theorems, instantiated with the executable model `pyFloat` at concrete
  inputs.
-/

namespace BrdfGui

/-- Model of a Python/numpy double: finite (exact rational), signed
infinity, or NaN.  `nan` doubles as the missing-value marker of the
loaded table (`np.nan`), exactly as in `_load_numeric_table`. -/
inductive PFloat where
  | finite (q : ℚ)
  | inf (pos : Bool)
  | nan
deriving DecidableEq

/-- Model of `np.isfinite` on a cell. -/
def PFloat.isFinite : PFloat → Bool
  | .finite _ => true
  | _ => false

/-! ## Character-level helpers shared by the loader (`src/brdfplot.py` lines 16-34) -/

/-- Separator class of `re.split(r"[\s,]+", line)`: whitespace or comma. -/
def isSepC (c : Char) : Bool := c.isWhitespace || c = ','

/-- Python's `str.strip()` on a list of characters. -/
def stripChars (cs : List Char) : List Char :=
  ((cs.dropWhile Char.isWhitespace).reverse.dropWhile Char.isWhitespace).reverse

/-- Accumulator pass of `splitToks`: `acc` is the current token,
reversed. -/
def splitToksAux : List Char → List Char → List (List Char)
  | [], acc => if acc.isEmpty then [] else [acc.reverse]
  | c :: rest, acc =>
    if isSepC c then
      if acc.isEmpty then splitToksAux rest []
      else acc.reverse :: splitToksAux rest []
    else splitToksAux rest (c :: acc)

/-- Model of `re.split(r"[\s,]+", line)` with empty tokens discarded: the maximal
runs of non-separator characters, in order. -/
def splitToks (cs : List Char) : List (List Char) := splitToksAux cs []

/-- Model of `tok.replace("D", "E").replace("d", "E")`: Fortran exponent-marker
normalization (both replaced patterns are single characters). -/
def cleanTokC (cs : List Char) : List Char :=
  cs.map fun c => if c = 'D' ∨ c = 'd' then 'E' else c

/-- All-or-nothing elementwise parse, as in the per-token loop of
`_load_numeric_table` (a single failure discards the whole row). -/
def mapOpt (f : α → Option β) : List α → Option (List β)
  | [] => some []
  | a :: l =>
    match f a, mapOpt f l with
    | some b, some r => some (b :: r)
    | _, _ => none

/-! ## The Numeric Table Loader (`_load_numeric_table`, `src/brdfplot.py` lines 9-43) -/

/-- One iteration of the line loop of `_load_numeric_table`: `some row`
when the (stripped) line is a non-comment, non-blank line all of whose
tokens parse as floats, `none` when the line is skipped. -/
def lineRow (pf : List Char → Option PFloat) (raw : List Char) : Option (List PFloat) :=
  let line := stripChars raw
  if line.isEmpty then none
  else if line.head? = some '#' then none
  else
    let toks := splitToks line
    if toks.isEmpty then none
    else
      match mapOpt (fun t => pf (cleanTokC t)) toks with
      | none => none
      | some row => if row.isEmpty then none else some row

/-- Right-pad a parsed row to the table width with the missing marker
(`np.full(..., np.nan)` followed by `table[idx, :len(row)] = row`). -/
def padRow (w : ℕ) (r : List PFloat) : List PFloat :=
  r ++ List.replicate (w - r.length) PFloat.nan

/-- Model of `_load_numeric_table`: collect the numeric rows, fail (`ValueError`,
modelled as `none`) when there are none, otherwise pad every row to the
maximum observed width. -/
def loadNumericTable (pf : List Char → Option PFloat) (lines : List (List Char)) :
    Option (List (List PFloat)) :=
  let rows := lines.filterMap (lineRow pf)
  if rows.isEmpty then none
  else some (rows.map (padRow ((rows.map List.length).foldl max 0)))

/-! ## Executable model of Python `float()` on the token forms used here -/

/-- Digit run to a natural number; `none` when empty or non-digit. -/
def parseNatDigits (cs : List Char) : Option ℕ :=
  match cs with
  | [] => none
  | _ =>
    if cs.all Char.isDigit then
      some (cs.foldl (fun a c => 10 * a + (c.toNat - 48)) 0)
    else none

/-- Split off everything before the first character satisfying `p`;
`none` in the second component when no such character occurs. -/
def breakAt (p : Char → Bool) : List Char → List Char × Option (List Char)
  | [] => ([], none)
  | c :: rest =>
    if p c then ([], some rest)
    else
      let r := breakAt p rest
      (c :: r.1, r.2)

/-- Mantissa `digits[.digits]` with at least one digit, as an exact rational. -/
def parseMantissa (cs : List Char) : Option ℚ :=
  let r := breakAt (· = '.') cs
  match r.2 with
  | none => (parseNatDigits r.1).map fun n => (n : ℚ)
  | some fp =>
    if r.1.isEmpty && fp.isEmpty then none
    else if r.1.all Char.isDigit && fp.all Char.isDigit then
      some ((((parseNatDigits r.1).getD 0 : ℕ) : ℚ) +
        (((parseNatDigits fp).getD 0 : ℕ) : ℚ) / 10 ^ fp.length)
    else none

/-- Optionally signed `digits` exponent field. -/
def parseSignedInt (cs : List Char) : Option ℤ :=
  match cs with
  | '+' :: ds => (parseNatDigits ds).map fun n => (n : ℤ)
  | '-' :: ds => (parseNatDigits ds).map fun n => -(n : ℤ)
  | ds => (parseNatDigits ds).map fun n => (n : ℤ)

/-- Unsigned decimal literal with optional `e`/`E` exponent. -/
def parseDec (cs : List Char) : Option ℚ :=
  let r := breakAt (fun c => c = 'e' || c = 'E') cs
  match r.2 with
  | none => parseMantissa r.1
  | some ex =>
    match parseMantissa r.1, parseSignedInt ex with
    | some m, some e => some (m * (10 : ℚ) ^ e)
    | _, _ => none

/-- Unsigned part of `float()`: `inf`/`infinity`/`nan` (case-insensitive,
as in Python) or a decimal literal. -/
def pyFloatPos (cs : List Char) (pos : Bool) : Option PFloat :=
  let low := cs.map Char.toLower
  if low = "inf".toList || low = "infinity".toList then some (.inf pos)
  else if low = "nan".toList then some .nan
  else (parseDec cs).map fun q => .finite (if pos then q else -q)

/-- Model of Python `float()` on a whitespace-free token: optional sign,
then `inf`/`infinity`/`nan` or a decimal literal with optional exponent.
Values are exact rationals, so this agrees with Python exactly on tokens
whose value is representable in binary64 (all tokens used in concrete
inputs below are). -/
def pyFloat (cs : List Char) : Option PFloat :=
  match cs with
  | '+' :: rest => pyFloatPos rest true
  | '-' :: rest => pyFloatPos rest false
  | rest => pyFloatPos rest true

/-! ## Column access and numeric helpers for the inference engine -/

/-- A loaded table, column-major: each entry is one column `data[:, idx]`.
(`ncols = data.shape[1]` is the length of this list.) -/
abbrev Table := List (List PFloat)

/-- Column access `data[:, idx]` (out-of-range gives the empty column; the code only
indexes `idx < ncols`). -/
def colAt (cols : Table) (idx : ℕ) : List PFloat := cols.getD idx []

/-- The rational value of a finite cell, `none` on `inf`/`nan` (the
`np.isfinite` mask combined with value extraction). -/
def PFloat.toQ? : PFloat → Option ℚ
  | .finite q => some q
  | .inf _ => none
  | .nan => none

@[simp] theorem PFloat.toQ?_finite (q : ℚ) : (PFloat.finite q).toQ? = some q := rfl

@[simp] theorem PFloat.toQ?_inf (b : Bool) : (PFloat.inf b).toQ? = none := rfl

@[simp] theorem PFloat.toQ?_nan : PFloat.nan.toQ? = none := rfl

/-- Model of `col[np.isfinite(col)]`: the finite entries, in order, as rationals. -/
def finiteVals (col : List PFloat) : List ℚ :=
  col.filterMap PFloat.toQ?

/-- Model of `np.min` of a nonempty list (0 on the empty list, never used there). -/
def listMin : List ℚ → ℚ
  | [] => 0
  | x :: xs => xs.foldl min x

/-- Model of `np.max` of a nonempty list (0 on the empty list, never used there). -/
def listMax : List ℚ → ℚ
  | [] => 0
  | x :: xs => xs.foldl max x

/-- Model of `np.diff`: consecutive differences `l[i+1] - l[i]`. -/
def diffsQ (l : List ℚ) : List ℚ :=
  List.zipWith (fun a b => b - a) l l.tail

/-- Substring test on character lists (Python's `key in name`). -/
def hasSubChars (p : List Char) : List Char → Bool
  | [] => p.isEmpty
  | c :: rest => p.isPrefixOf (c :: rest) || hasSubChars p rest

/-- Python `key in name` on strings. -/
def strHas (name key : String) : Bool := hasSubChars key.toList name.toList

/-- Model of `str(tok).strip().lower()`: header-token normalization (performed
character-wise: strip surrounding whitespace, lower-case each character). -/
def normHeader (h : String) : String :=
  String.mk ((stripChars h.toList).map Char.toLower)

/-- Lookup `header_lower[idx]`: normalized header token, `""` past the end
(the code pads `header_lower` with `""` up to `ncols`). -/
def headerAt (hdrs : List String) (idx : ℕ) : String :=
  ((hdrs.map normHeader).get? idx).getD ""

/-! ## Axis-column selection (`_select_x_column`, `src/brdfplot.py` lines 81-137) -/

/-- The header-keyword score of `_select_x_column`: +2.5 for a
scattering/viewing keyword, +0.5 for `angle`, −1.0 for `phi`/`azimuth`;
0 for an empty name. -/
def headerScoreQ (name : String) : ℚ :=
  if name = "" then 0
  else
    (if ["theta_r", "theta_s", "thetas", "scatter", "scatt", "view"].any
        (fun k => strHas name k) then 5/2 else 0)
    + (if strHas name "angle" then 1/2 else 0)
    + (if strHas name "phi" || strHas name "azimuth" then -1 else 0)

/-- Score of one column in `_select_x_column`: `none` when the column is
disqualified (fewer than 3 finite values, or spread below `1e-6`),
otherwise `1.8*monotonic + range_score + header_score + closeness`. -/
def xColScore (expS expE : Option ℚ) (name : String) (col : List PFloat) : Option ℚ :=
  let finite := finiteVals col
  if finite.length < 3 then none
  else
    let spread := listMax finite - listMin finite
    if spread < 1/1000000 then none
    else
      let diffs := diffsQ finite
      let monotonic : ℚ :=
        if diffs.length ≠ 0 then
          max ((diffs.countP (fun d => -1/100000000 ≤ d) : ℚ) / diffs.length)
              ((diffs.countP (fun d => d ≤ 1/100000000) : ℚ) / diffs.length)
        else 0
      let range := min (spread / 180) 1
      let closeness : ℚ :=
        match expS, expE with
        | some s0, some e0 =>
          if min s0 e0 < max s0 e0 then
            1 - ((|listMin finite - min s0 e0| + |listMax finite - max s0 e0|) /
              (2 * max (max s0 e0 - min s0 e0) (1/1000000)))
          else 0
        | _, _ => 0
      some (9/5 * monotonic + range + headerScoreQ name + closeness)

/-- The best-score loop of `_select_x_column`: running best `(index,
score)`, strict improvement only (ties keep the earliest column). -/
def pickBestAux : ℕ → Option (ℕ × ℚ) → List (Option ℚ) → Option (ℕ × ℚ)
  | _, best, [] => best
  | i, best, none :: rest => pickBestAux (i + 1) best rest
  | i, none, some s :: rest => pickBestAux (i + 1) (some (i, s)) rest
  | i, some (bi, bs), some s :: rest =>
    pickBestAux (i + 1) (if bs < s then some (i, s) else some (bi, bs)) rest

/-- Index of the best-scoring column, if any column qualified. -/
def pickBest (scores : List (Option ℚ)) : Option ℕ :=
  (pickBestAux 0 none scores).map Prod.fst

/-- Heuristic part of `_select_x_column` (no explicit override): best
composite score wins, else fall back to column 2 (or the last column for
narrow tables). -/
def selectXAuto (cols : Table) (hdrs : List String) (expS expE : Option ℚ) : ℕ :=
  let scores := (List.range cols.length).map fun i =>
    xColScore expS expE (headerAt hdrs i) (colAt cols i)
  match pickBest scores with
  | some b => b
  | none => if 2 < cols.length then 2 else cols.length - 1

/-- Model of `_select_x_column`: an in-range explicit override wins, otherwise the
scoring heuristic runs. -/
def selectXColumn (xcol? : Option ℕ) (cols : Table) (hdrs : List String)
    (expS expE : Option ℚ) : ℕ :=
  match xcol? with
  | some x => if x < cols.length then x else selectXAuto cols hdrs expS expE
  | none => selectXAuto cols hdrs expS expE

/-! ## Measurement-column selection (`_select_measure_columns`, `src/brdfplot.py` lines 139-185) -/

/-- The geometry keywords whose presence in a header name excludes the
column from auto-selection. -/
def geomKeys : List String :=
  ["theta_i", "thetai", "incident", "azimuth", "phi", "rotation",
   "lambda", "wavelength", "index", "type"]

/-- Does the (normalized, nonempty) header name contain a geometry
keyword?  (`if name and any(key in name for key in geometry_keys)`.) -/
def geomHit (name : String) : Bool :=
  !(name == "") && geomKeys.any fun k => strHas name k

/-- Both-finite projection of one row's `(axis, column)` cells. -/
def jointCell (p : PFloat × PFloat) : Option (ℚ × ℚ) :=
  p.1.toQ?.bind fun a => p.2.toQ?.map fun b => (a, b)

/-- Rows where the axis and the candidate column are both finite
(`mask = mask_x & np.isfinite(col)`), as `(x value, column value)`
pairs in row order. -/
def jointFinite (xs col : List PFloat) : List (ℚ × ℚ) :=
  (xs.zip col).filterMap jointCell

/-- Arithmetic mean (0 on the empty list). -/
def listMean (l : List ℚ) : ℚ := l.sum / l.length

/-- Population variance, `np.std(l)^2`.  The code ranks candidates by
`np.nanstd`; since `sqrt` is strictly monotone on nonnegative reals,
ranking by variance produces the same order, so the variance is the
sort key in this embedding. -/
def listVar (l : List ℚ) : ℚ :=
  (l.map fun v => (v - listMean l) ^ (2 : ℕ)).sum / l.length

/-- Model of `np.allclose(vals, x_vals[mask], rtol=1e-5, atol=1e-4)`:
elementwise `|a - b| <= atol + rtol*|b|`. -/
def allCloseQ (as' bs : List ℚ) : Bool :=
  (as'.zip bs).all fun p => |p.1 - p.2| ≤ 1/10000 + (1/100000) * |p.2|

/-- One iteration of the candidate loop of `_select_measure_columns`:
`some (idx, sort key)` when the column survives every filter. -/
def measureCandidate (cols : Table) (hdrs : List String) (xIdx idx : ℕ) :
    Option (ℕ × ℚ) :=
  if idx = xIdx then none
  else
    let pairs := jointFinite (colAt cols xIdx) (colAt cols idx)
    if pairs.length < 2 then none
    else
      let vals := pairs.map Prod.snd
      if allCloseQ vals (pairs.map Prod.fst) then none
      else if listMax vals - listMin vals < 1/1000000000000 then none
      else if geomHit (headerAt hdrs idx) then none
      else some (idx, listVar vals)

/-- All surviving candidates, in column order. -/
def measureCandidates (cols : Table) (hdrs : List String) (xIdx : ℕ) :
    List (ℕ × ℚ) :=
  (List.range cols.length).filterMap (measureCandidate cols hdrs xIdx)

/-- Stable insertion for descending-by-key order (Python `list.sort`
with `reverse=True` is stable, hence extensionally this sort). -/
def insertDesc (x : ℕ × ℚ) : List (ℕ × ℚ) → List (ℕ × ℚ)
  | [] => [x]
  | y :: ys => if y.2 < x.2 then x :: y :: ys else y :: insertDesc x ys

/-- Model of `candidates.sort(key=lambda item: item[1], reverse=True)`. -/
def sortDescBy : List (ℕ × ℚ) → List (ℕ × ℚ)
  | [] => []
  | x :: xs => insertDesc x (sortDescBy xs)

/-- The fallback column index: the last column, nudged one left when it
coincides with the axis (`fallback = ncols - 1; if fallback == x_idx and
fallback > 0: fallback -= 1`). -/
def fallbackIdx (n xIdx : ℕ) : ℕ :=
  if n - 1 = xIdx ∧ 0 < n - 1 then n - 1 - 1 else n - 1

/-- The fallback candidate list used when no column survives the filter
(`if 0 <= fallback < ncols and fallback != x_idx: candidates.append(...)`). -/
def fallbackList (cols : Table) (xIdx : ℕ) : List (ℕ × ℚ) :=
  if fallbackIdx cols.length xIdx < cols.length ∧ fallbackIdx cols.length xIdx ≠ xIdx
  then [(fallbackIdx cols.length xIdx,
    listVar (finiteVals (colAt cols (fallbackIdx cols.length xIdx))))]
  else []

/-- Heuristic part of `_select_measure_columns` (no explicit override):
filtered candidates ranked by descending spread key; when none survive,
the last column (nudged off the axis) is the single fallback. -/
def selectMeasureAuto (cols : Table) (hdrs : List String) (xIdx : ℕ) : List ℕ :=
  let cand := measureCandidates cols hdrs xIdx
  (sortDescBy (if cand.isEmpty then fallbackList cols xIdx else cand)).map Prod.fst

/-- Model of `_select_measure_columns`: an in-range explicit override wins,
otherwise the heuristic runs. -/
def selectMeasureColumns (ycol? : Option ℕ) (cols : Table) (hdrs : List String)
    (xIdx : ℕ) : List ℕ :=
  match ycol? with
  | some y => if y < cols.length then [y] else selectMeasureAuto cols hdrs xIdx
  | none => selectMeasureAuto cols hdrs xIdx

/-! ## `plot_csv` role resolution and the semilog decision (`src/brdfplot.py` lines 187-217) -/

/-- Role resolution step of `plot_csv`: axis then measurement columns;
the `ValueError("No measurement columns available for plotting.")` is the
`error` branch. -/
def plotSelect (xcol? ycol? : Option ℕ) (cols : Table) (hdrs : List String)
    (expS expE : Option ℚ) : Except String (ℕ × List ℕ) :=
  let x := selectXColumn xcol? cols hdrs expS expE
  let ms := selectMeasureColumns ycol? cols hdrs x
  if ms.isEmpty then Except.error "No measurement columns available for plotting."
  else Except.ok (x, ms)

/-- Model of `float(np.mean(col[mask] > 0))` over `mask = base_mask &
np.isfinite(col)`; `none` when `mask.sum() == 0` (the column is dropped
from `valid_indices`). -/
def positiveScore (xs col : List PFloat) : Option ℚ :=
  let pairs := jointFinite xs col
  if pairs.isEmpty then none
  else some ((pairs.countP (fun p => 0 < p.2) : ℚ) / pairs.length)

/-- Model of `use_semilogy = bool(semilogy and positive_scores and
min(positive_scores) >= 0.7)`. -/
def useSemilogy (semilogy : Bool) (cols : Table) (xIdx : ℕ) (ms : List ℕ) : Bool :=
  let scores := ms.filterMap fun i => positiveScore (colAt cols xIdx) (colAt cols i)
  semilogy && !scores.isEmpty && decide (7/10 ≤ listMin scores)

/-- Claim-side yardstick: the fraction of a column's finite values that
are strictly positive (what C4 literally measures a column by). -/
def finitePosFrac (col : List PFloat) : ℚ :=
  ((finiteVals col).countP (fun v => 0 < v) : ℚ) / (finiteVals col).length

/-- One invocation of the Column Role Inference Engine: the axis index
and the ordered measurement indices, from one set of inputs. -/
def inferRoles (xcol? ycol? : Option ℕ) (cols : Table) (hdrs : List String)
    (expS expE : Option ℚ) : ℕ × List ℕ :=
  let x := selectXColumn xcol? cols hdrs expS expE
  (x, selectMeasureColumns ycol? cols hdrs x)

/-! ## Claim-side loader characterization (spec §4.1 / §8) -/

/-- The spec's description of a data row: a non-blank, non-comment line
all of whose tokens parse as floats after `D`/`d` → `E` normalization
(and that has at least one token: an all-separator line has none). -/
def specNumericLine (pf : List Char → Option PFloat) (raw : List Char) : Bool :=
  let line := stripChars raw
  !line.isEmpty && !(line.head? == some '#') && !(splitToks line).isEmpty &&
    (splitToks line).all fun t => (pf (cleanTokC t)).isSome

/-- The parsed values of a data row (meaningful when `specNumericLine`). -/
def specRow (pf : List Char → Option PFloat) (raw : List Char) : List PFloat :=
  (mapOpt (fun t => pf (cleanTokC t)) (splitToks (stripChars raw))).getD []

/-- The spec's table width: the maximum token count among the numeric
lines. -/
def tableWidth (pf : List Char → Option PFloat) (lines : List (List Char)) : ℕ :=
  (((lines.filter (specNumericLine pf)).map fun l =>
    (splitToks (stripChars l)).length)).foldl max 0

/-! ## CSV persistence of a solver run (`run_brdfprog`, `src/brdf_form.py` lines 997-1001) -/

/-- Model of `csv.writer.writerow(row)` for a row of floats: the serialized
values joined by commas (floats never need quoting). -/
def joinCommas : List (List Char) → List Char
  | [] => []
  | [t] => t
  | t :: t' :: ts => t ++ ',' :: joinCommas (t' :: ts)

/-- The CSV line written for one numeric row, given the float-to-text
serialization (Python `str(float)`). -/
def csvLineChars (serialize : PFloat → List Char) (row : List PFloat) : List Char :=
  joinCommas (row.map serialize)

/-! ## Post-execution tail of `run_brdfprog` (`src/brdf_form.py` lines 956-1028) -/

/-- State of the output-parsing loop of `run_brdfprog`: numeric rows in
reverse order, captured header tokens, most recent text-line tokens. -/
structure ParseAcc where
  revRows : List (List PFloat)
  header : List (List Char)
  lastText : List (List Char)

/-- One line of the `result.stdout.splitlines()` loop of `run_brdfprog`:
numeric lines append a row (grabbing the pending text line as header the
first time), text lines become the pending header candidate. -/
def parseOutputLine (pf : List Char → Option PFloat) (acc : ParseAcc)
    (raw : List Char) : ParseAcc :=
  let line := stripChars raw
  if line.isEmpty || line.head? = some '#' then acc
  else
    let toks := splitToks line
    if toks.isEmpty then acc
    else
      match mapOpt (fun t => pf (cleanTokC t)) toks with
      | some row =>
        if row.isEmpty then { acc with lastText := toks }
        else
          { acc with
            revRows := row :: acc.revRows
            header :=
              if acc.header.isEmpty && !acc.lastText.isEmpty then acc.lastText
              else acc.header }
      | none => { acc with lastText := toks }

/-- The full stdout parse of `run_brdfprog`: numeric rows in order and
the detected header tokens (the final fallback grabs the last text line
when no header preceded a numeric row). -/
def parseSolverOutput (pf : List Char → Option PFloat) (lines : List (List Char)) :
    List (List PFloat) × List (List Char) :=
  let acc := lines.foldl (parseOutputLine pf) ⟨[], [], []⟩
  (acc.revRows.reverse,
   if acc.header.isEmpty && !acc.lastText.isEmpty then acc.lastText else acc.header)

/-- Observable outcome of the part of `run_brdfprog` that follows the
subprocess call: the files written from here on, the user-visible
message, and the resulting `last_csv_path`. -/
structure RunOutcome where
  message : String
  stdoutFileWritten : Bool
  csvWritten : Option (List (List PFloat))
  lastCsvPath : Option String

/-- Model of `run_brdfprog` after `subprocess.run` returns: on non-zero exit the
error with the captured stderr is shown and nothing else happens; on
success the raw stdout is saved, the output is parsed, and a CSV is
written (and `last_csv_path` updated) only when numeric rows were found. -/
def runBrdfprogAfterExec (pf : List Char → Option PFloat) (returncode : ℤ)
    (stderrText : String) (stdoutLines : List (List Char)) (csvFilename : String)
    (prevLastCsv : Option String) : RunOutcome :=
  if returncode ≠ 0 then
    { message := "[Error] brdfprog failed:\n" ++ stderrText
      stdoutFileWritten := false
      csvWritten := none
      lastCsvPath := prevLastCsv }
  else
    let rows := (parseSolverOutput pf stdoutLines).1
    match rows with
    | [] =>
      { message := "No numeric data detected in BRDFProg output; graph not updated."
        stdoutFileWritten := true
        csvWritten := none
        lastCsvPath := prevLastCsv }
    | _ =>
      { message := "brdfprog completed. Parsing output table…"
        stdoutFileWritten := true
        csvWritten := some rows
        lastCsvPath := some csvFilename }

/-! ## Basic lemmas about the helpers -/

theorem mapOpt_length {f : α → Option β} :
    ∀ {l : List α} {r : List β}, mapOpt f l = some r → r.length = l.length := by
  intro l
  induction l with
  | nil => intro r h; simp [mapOpt] at h; simp [← h]
  | cons a t ih =>
    intro r h
    simp only [mapOpt] at h
    cases hfa : f a with
    | none => rw [hfa] at h; simp at h
    | some b =>
      rw [hfa] at h
      cases hrest : mapOpt f t with
      | none => rw [hrest] at h; simp at h
      | some rt =>
        rw [hrest] at h
        simp only [Option.some.injEq] at h
        subst h
        simp [ih hrest]

theorem mapOpt_isSome {f : α → Option β} :
    ∀ {l : List α}, (mapOpt f l).isSome = l.all fun a => (f a).isSome := by
  intro l
  induction l with
  | nil => simp [mapOpt]
  | cons a t ih =>
    simp only [mapOpt, List.all_cons]
    cases hfa : f a with
    | none => simp
    | some b =>
      cases hrest : mapOpt f t with
      | none => rw [hrest] at ih; simp_all
      | some rt => rw [hrest] at ih; simp_all

theorem mapOpt_map_of_pointwise {f : α → Option β} {g : β → α} :
    ∀ {r : List β}, (∀ v ∈ r, f (g v) = some v) → mapOpt f (r.map g) = some r := by
  intro r
  induction r with
  | nil => intro _; simp [mapOpt]
  | cons v t ih =>
    intro h
    have hv : f (g v) = some v := h v (by simp)
    have ht := ih fun w hw => h w (by simp [hw])
    simp [mapOpt, hv, ht]

/-- Function `lineRow` is exactly: the parsed row on the spec's numeric lines,
nothing elsewhere. -/
theorem lineRow_eq (pf : List Char → Option PFloat) (raw : List Char) :
    lineRow pf raw =
      if specNumericLine pf raw then some (specRow pf raw) else none := by
  simp only [lineRow, specNumericLine, specRow]
  by_cases h1 : (stripChars raw).isEmpty
  · simp [h1]
  · simp only [h1, if_false, Bool.not_false, Bool.true_and]
    by_cases h2 : (stripChars raw).head? = some '#'
    · simp [h2]
    · simp only [h2, if_false]
      have h2' : ((stripChars raw).head? == some '#') = false := by
        simp [h2]
      simp only [h2', Bool.not_false, Bool.true_and]
      by_cases h3 : (splitToks (stripChars raw)).isEmpty
      · simp [h3]
      · simp only [h3, if_false, Bool.not_false, Bool.true_and]
        cases hm : mapOpt (fun t => pf (cleanTokC t)) (splitToks (stripChars raw)) with
        | none =>
          have : ((splitToks (stripChars raw)).all fun t => (pf (cleanTokC t)).isSome)
              = false := by
            rw [← mapOpt_isSome (f := fun t => pf (cleanTokC t)), hm]
            rfl
          simp [this]
        | some row =>
          have hall : ((splitToks (stripChars raw)).all fun t => (pf (cleanTokC t)).isSome)
              = true := by
            rw [← mapOpt_isSome (f := fun t => pf (cleanTokC t)), hm]
            rfl
          have hlen := mapOpt_length hm
          have hrow : row.isEmpty = false := by
            cases row with
            | nil =>
              exfalso
              apply h3
              cases hsp : splitToks (stripChars raw) with
              | nil => rfl
              | cons a b => rw [hsp] at hlen; simp at hlen
            | cons _ _ => rfl
          simp [hall, hrow]

/-- Collecting rows by `lineRow` is `filter` by the spec predicate followed
by the row parse. -/
theorem filterMap_lineRow (pf : List Char → Option PFloat) (lines : List (List Char)) :
    lines.filterMap (lineRow pf) =
      (lines.filter (specNumericLine pf)).map (specRow pf) := by
  induction lines with
  | nil => rfl
  | cons l t ih =>
    by_cases h : specNumericLine pf l
    · rw [List.filterMap_cons, lineRow_eq, if_pos h, List.filter_cons_of_pos h,
        List.map_cons, ih]
    · rw [List.filterMap_cons, lineRow_eq, if_neg h,
        List.filter_cons_of_neg h, ih]

theorem init_le_foldl_max (l : List ℕ) (a : ℕ) : a ≤ l.foldl max a := by
  induction l generalizing a with
  | nil => exact le_refl _
  | cons b t ih => exact le_trans (le_max_left a b) (ih (max a b))

theorem le_foldl_max (l : List ℕ) (a : ℕ) : ∀ x ∈ l, x ≤ l.foldl max a := by
  induction l generalizing a with
  | nil => simp
  | cons b t ih =>
    intro x hx
    rw [List.mem_cons] at hx
    rcases hx with hx | hx
    · subst hx
      exact le_trans (le_max_right a x) (init_le_foldl_max t (max a x))
    · exact ih (max a b) x hx

theorem specRow_length {pf : List Char → Option PFloat} {l : List Char}
    (h : specNumericLine pf l = true) :
    (specRow pf l).length = (splitToks (stripChars l)).length := by
  have hall : ((splitToks (stripChars l)).all fun t => (pf (cleanTokC t)).isSome) = true := by
    simp only [specNumericLine, Bool.and_eq_true] at h
    exact h.2
  have hsome : (mapOpt (fun t => pf (cleanTokC t)) (splitToks (stripChars l))).isSome = true := by
    rw [mapOpt_isSome]; exact hall
  cases hm : mapOpt (fun t => pf (cleanTokC t)) (splitToks (stripChars l)) with
  | none => rw [hm] at hsome; simp at hsome
  | some row => simp only [specRow, hm, Option.getD_some]; exact mapOpt_length hm

theorem loader_width_eq (pf : List Char → Option PFloat) (lines : List (List Char)) :
    ((lines.filterMap (lineRow pf)).map List.length).foldl max 0 = tableWidth pf lines := by
  rw [filterMap_lineRow, tableWidth, List.map_map]
  congr 1
  apply List.map_congr_left
  intro l hl
  exact specRow_length (List.mem_filter.mp hl).2

/-- Claim C5. The Numeric Table Loader: its value is `none` exactly when no
line is all-numeric, otherwise the table lists the parsed numeric lines
in order, each right-padded with the missing marker to the maximum token
count, and every row of the result has exactly that width. -/
theorem loader_shape (pf : List Char → Option PFloat) (lines : List (List Char)) :
    (loadNumericTable pf lines =
      if (lines.filter (specNumericLine pf)).isEmpty then none
      else
        some ((lines.filter (specNumericLine pf)).map fun l' =>
          padRow (tableWidth pf lines) (specRow pf l'))) ∧
    (∀ t, loadNumericTable pf lines = some t →
      ∀ r ∈ t, r.length = tableWidth pf lines) := by
  have hrows := filterMap_lineRow pf lines
  have hw := loader_width_eq pf lines
  have hmain : loadNumericTable pf lines =
      if (lines.filter (specNumericLine pf)).isEmpty then none
      else
        some ((lines.filter (specNumericLine pf)).map fun l' =>
          padRow (tableWidth pf lines) (specRow pf l')) := by
    rw [loadNumericTable, hrows, ← hw, hrows, List.map_map, List.map_map]
    cases hfe : lines.filter (specNumericLine pf) with
    | nil => simp
    | cons a as => simp [Function.comp]
  refine ⟨hmain, ?_⟩
  intro t ht r hr
  rw [hmain] at ht
  by_cases hemp : (lines.filter (specNumericLine pf)).isEmpty
  · rw [if_pos hemp] at ht; exact absurd ht (by simp)
  · rw [if_neg hemp, Option.some.injEq] at ht
    subst ht
    rw [List.mem_map] at hr
    obtain ⟨l', hl', hl'row⟩ := hr
    have hle : (specRow pf l').length ≤ tableWidth pf lines := by
      rw [← hw]
      apply le_foldl_max
      rw [hrows, List.map_map, List.mem_map]
      exact ⟨l', hl', rfl⟩
    rw [← hl'row]
    simp only [padRow, List.length_append, List.length_replicate]
    omega

/-- Claim C5 witness: the parse scenario of spec §8 (with integer-valued
measurements), evaluated through `loader_shape`. -/
theorem loader_shape_witness :
    loadNumericTable pyFloat
      ["# comment".toList, "Theta S11".toList, "10 1".toList, "20 2".toList,
        "30 3".toList] =
      some [[PFloat.finite 10, PFloat.finite 1], [PFloat.finite 20, PFloat.finite 2],
        [PFloat.finite 30, PFloat.finite 3]] :=
  (loader_shape pyFloat
    ["# comment".toList, "Theta S11".toList, "10 1".toList, "20 2".toList,
      "30 3".toList]).1.trans (by decide)

/-- A row yielded by `lineRow` is never empty (the `if not row: continue`
guard). -/
theorem lineRow_ne_nil {pf : List Char → Option PFloat} {raw : List Char}
    {row : List PFloat} (h : lineRow pf raw = some row) : row ≠ [] := by
  simp only [lineRow] at h
  by_cases h1 : (stripChars raw).isEmpty
  · simp [h1] at h
  · simp only [h1] at h
    by_cases h2 : (stripChars raw).head? = some '#'
    · simp [h2] at h
    · simp only [h2, if_false, Bool.false_eq_true] at h
      by_cases h3 : (splitToks (stripChars raw)).isEmpty
      · simp [h3] at h
      · simp only [h3, Bool.false_eq_true, if_false] at h
        cases hm : mapOpt (fun t => pf (cleanTokC t)) (splitToks (stripChars raw)) with
        | none => rw [hm] at h; simp at h
        | some r =>
          rw [hm] at h
          by_cases h4 : r.isEmpty
          · simp [h4] at h
          · simp only [h4, Bool.false_eq_true, if_false, Option.some.injEq] at h
            subst h
            simpa [List.isEmpty_iff] using h4

/-- Claim C6, counterexample: on the input line `inf` the loader accepts the
row (Python `float("inf")` parses) and stores an infinite cell, which is
neither finite nor the missing marker; the claimed invariant fails. -/
theorem loader_invariant_cex :
    loadNumericTable pyFloat ["inf".toList] = some [[PFloat.inf true]] ∧
      (PFloat.inf true).isFinite = false ∧ PFloat.inf true ≠ PFloat.nan := by
  refine ⟨by decide, by decide, by decide⟩

/-- Claim C6, amended: when every accepted row parses to finite values only,
every cell of the loaded table is finite or the missing marker and every
row retains at least one finite cell. -/
theorem loader_invariant_amended (pf : List Char → Option PFloat)
    (lines : List (List Char))
    (hfin : ∀ l ∈ lines, ((lineRow pf l).getD []).all PFloat.isFinite = true) :
    ∀ t, loadNumericTable pf lines = some t →
      ∀ r ∈ t, (∀ v ∈ r, v.isFinite = true ∨ v = PFloat.nan) ∧
        (∃ v ∈ r, v.isFinite = true) := by
  intro t ht r hr
  simp only [loadNumericTable] at ht
  by_cases hemp : (lines.filterMap (lineRow pf)).isEmpty
  · simp [hemp] at ht
  · simp only [hemp, Bool.false_eq_true, if_false, Option.some.injEq] at ht
    subst ht
    rw [List.mem_map] at hr
    obtain ⟨row, hrowmem, hrow⟩ := hr
    rw [List.mem_filterMap] at hrowmem
    obtain ⟨l, hl, hlrow⟩ := hrowmem
    have hallfin : row.all PFloat.isFinite = true := by
      have := hfin l hl
      rwa [hlrow, Option.getD_some] at this
    rw [List.all_eq_true] at hallfin
    subst hrow
    constructor
    · intro v hv
      simp only [padRow, List.mem_append] at hv
      rcases hv with hv | hv
      · exact Or.inl (hallfin v hv)
      · exact Or.inr (List.eq_of_mem_replicate hv)
    · have hne := lineRow_ne_nil hlrow
      cases hrowc : row with
      | nil => exact absurd hrowc hne
      | cons v0 vs =>
        refine ⟨v0, ?_, ?_⟩
        · simp [padRow, hrowc]
        · exact hallfin v0 (by rw [hrowc]; simp)

/-- Claim C6 amended witness: a concrete all-finite input, through
`loader_invariant_amended`. -/
theorem loader_invariant_amended_witness :
    (PFloat.finite 1).isFinite = true ∨ PFloat.finite 1 = PFloat.nan :=
  ((loader_invariant_amended pyFloat ["1 2".toList] (by decide)
      [[PFloat.finite 1, PFloat.finite 2]] (by decide)
      [PFloat.finite 1, PFloat.finite 2] (by decide)).1
    (PFloat.finite 1) (by decide))

/-- Claim C8. The Column Role Inference Engine is a pure function of the
table, headers, hint and overrides: two invocations on identical inputs
return the identical role assignment. -/
theorem inferRoles_deterministic (xcol? ycol? : Option ℕ) (cols : Table)
    (hdrs : List String) (expS expE : Option ℚ) :
    inferRoles xcol? ycol? cols hdrs expS expE =
      inferRoles xcol? ycol? cols hdrs expS expE := rfl

/-! ## The best-score loop: the strictly best column wins -/

theorem pickBestAux_keep (L : List (Option ℚ)) :
    ∀ (i bi : ℕ) (bs : ℚ), (∀ k t, L.get? k = some (some t) → t ≤ bs) →
      pickBestAux i (some (bi, bs)) L = some (bi, bs) := by
  induction L with
  | nil => intro i bi bs _; rfl
  | cons o rest ih =>
    intro i bi bs h
    cases o with
    | none => exact ih (i + 1) bi bs fun k t hk => h (k + 1) t hk
    | some s =>
      have hs : s ≤ bs := h 0 s rfl
      have : ¬ bs < s := not_lt.mpr hs
      simp only [pickBestAux, this, if_false]
      exact ih (i + 1) bi bs fun k t hk => h (k + 1) t hk

theorem pickBestAux_reach (L : List (Option ℚ)) :
    ∀ (m i : ℕ) (best : Option (ℕ × ℚ)) (s : ℚ),
      L.get? m = some (some s) →
      (∀ k t, k ≠ m → L.get? k = some (some t) → t < s) →
      (∀ bi bs, best = some (bi, bs) → bs < s) →
      pickBestAux i best L = some (i + m, s) := by
  induction L with
  | nil => intro m i best s hm; simp at hm
  | cons o rest ih =>
    intro m i best s hm hall hb
    cases m with
    | zero =>
      have ho : o = some s := by simpa using hm
      subst ho
      have hrest : ∀ k t, rest.get? k = some (some t) → t ≤ s := fun k t hk =>
        le_of_lt (hall (k + 1) t (Nat.succ_ne_zero k) hk)
      cases best with
      | none =>
        simpa using pickBestAux_keep rest (i + 1) i s hrest
      | some p =>
        obtain ⟨bi, bs⟩ := p
        have hbs : bs < s := hb bi bs rfl
        simp only [pickBestAux, hbs, if_true]
        simpa using pickBestAux_keep rest (i + 1) i s hrest
    | succ m' =>
      have hm' : rest.get? m' = some (some s) := by simpa using hm
      have hall' : ∀ k t, k ≠ m' → rest.get? k = some (some t) → t < s :=
        fun k t hk hk2 => hall (k + 1) t (by omega) hk2
      have harith : i + (m' + 1) = (i + 1) + m' := by omega
      cases o with
      | none =>
        rw [harith]
        simp only [pickBestAux]
        exact ih m' (i + 1) best s hm' hall' hb
      | some u =>
        have hu : u < s := hall 0 u (Nat.succ_ne_zero m').symm rfl
        rw [harith]
        cases best with
        | none =>
          simp only [pickBestAux]
          exact ih m' (i + 1) (some (i, u)) s hm' hall'
            (fun bi bs hbi => by cases hbi; exact hu)
        | some p =>
          obtain ⟨bi, bs⟩ := p
          have hbs : bs < s := hb bi bs rfl
          simp only [pickBestAux]
          by_cases hc : bs < u
          · rw [if_pos hc]
            exact ih m' (i + 1) (some (i, u)) s hm' hall'
              (fun bi' bs' hbi => by cases hbi; exact hu)
          · rw [if_neg hc]
            exact ih m' (i + 1) (some (bi, bs)) s hm' hall'
              (fun bi' bs' hbi => by cases hbi; exact hbs)

/-- If column `m` carries score `s` and every other defined score is
strictly below `s`, the loop selects `m`. -/
theorem pickBest_eq (L : List (Option ℚ)) (m : ℕ) (s : ℚ)
    (hm : L.get? m = some (some s))
    (hall : ∀ k t, k ≠ m → L.get? k = some (some t) → t < s) :
    pickBest L = some m := by
  rw [pickBest, pickBestAux_reach L m 0 none s hm hall (by intro _ _ h; cases h)]
  simp

/-! ## Score bounds and the Theta_r score -/

theorem natDiv_le_one {c n : ℕ} (h : c ≤ n) : (c : ℚ) / n ≤ 1 := by
  cases n with
  | zero =>
    interval_cases c
    simp
  | succ n' =>
    rw [div_le_one (by positivity)]
    exact_mod_cast h

theorem headerScoreQ_phi : headerScoreQ "phi" = -1 := by
  norm_num +decide [headerScoreQ]

theorem headerScoreQ_s11 : headerScoreQ "s11" = 0 := by
  norm_num +decide [headerScoreQ]

theorem headerScoreQ_theta : headerScoreQ "theta_r" = 5/2 := by
  norm_num +decide [headerScoreQ]

/-- With no expected-range hint, any qualifying column's composite score
is at most `1.8 + 1 + header score`. -/
theorem xColScore_le {name : String} {col : List PFloat} {sc : ℚ}
    (h : xColScore none none name col = some sc) :
    sc ≤ 14/5 + headerScoreQ name := by
  simp only [xColScore] at h
  by_cases h1 : (finiteVals col).length < 3
  · rw [if_pos h1] at h; cases h
  · rw [if_neg h1] at h
    by_cases h2 : listMax (finiteVals col) - listMin (finiteVals col) < 1/1000000
    · rw [if_pos h2] at h; cases h
    · rw [if_neg h2, Option.some.injEq] at h
      set diffs := diffsQ (finiteVals col) with hdiffs
      have hmono : (if diffs.length ≠ 0 then
          max ((diffs.countP (fun d => -1/100000000 ≤ d) : ℚ) / diffs.length)
            ((diffs.countP (fun d => d ≤ 1/100000000) : ℚ) / diffs.length)
          else 0) ≤ 1 := by
        by_cases hd : diffs.length ≠ 0
        · rw [if_pos hd]
          exact max_le (natDiv_le_one (List.countP_le_length _))
            (natDiv_le_one (List.countP_le_length _))
        · rw [if_neg hd]; norm_num
      have hrange : min ((listMax (finiteVals col) - listMin (finiteVals col)) / 180) 1
          ≤ 1 := min_le_right _ _
      have hmononneg : (0:ℚ) ≤ (if diffs.length ≠ 0 then
          max ((diffs.countP (fun d => -1/100000000 ≤ d) : ℚ) / diffs.length)
            ((diffs.countP (fun d => d ≤ 1/100000000) : ℚ) / diffs.length)
          else 0) := by
        by_cases hd : diffs.length ≠ 0
        · rw [if_pos hd]
          exact le_max_of_le_left (by positivity)
        · rw [if_neg hd]
      rw [← h]
      have h95 : 9/5 * (if diffs.length ≠ 0 then
          max ((diffs.countP (fun d => -1/100000000 ≤ d) : ℚ) / diffs.length)
            ((diffs.countP (fun d => d ≤ 1/100000000) : ℚ) / diffs.length)
          else 0) ≤ 9/5 := by
        nlinarith [hmono, hmononneg]
      linarith [h95, hrange]

theorem diffsQ_length (l : List ℚ) : (diffsQ l).length = l.length - 1 := by
  rw [diffsQ, List.length_zipWith, List.length_tail]
  omega

theorem chain'_diffs_pos :
    ∀ {l : List ℚ}, List.Chain' (· < ·) l → ∀ d ∈ diffsQ l, 0 < d := by
  intro l
  induction l with
  | nil => intro _ d hd; simp [diffsQ] at hd
  | cons x rest ih =>
    intro hch d hd
    cases rest with
    | nil => simp [diffsQ] at hd
    | cons y rest' =>
      have hstep : x < y := (List.chain'_cons.mp hch).1
      have htail : List.Chain' (· < ·) (y :: rest') := (List.chain'_cons.mp hch).2
      simp only [diffsQ, List.tail_cons, List.zipWith_cons_cons, List.mem_cons] at hd
      rcases hd with hd | hd
      · subst hd; linarith
      · exact ih htail d (by simpa [diffsQ] using hd)

/-- The exact score of a column that is strictly increasing from 0 to
180 with at least 3 finite values, under the header `theta_r` and no
expected-range hint: `1.8 + 1 + 2.5 = 5.3`. -/
theorem xColScore_theta {col : List PFloat}
    (hch : List.Chain' (· < ·) (finiteVals col))
    (hlen : 3 ≤ (finiteVals col).length)
    (hmin : listMin (finiteVals col) = 0)
    (hmax : listMax (finiteVals col) = 180) :
    xColScore none none "theta_r" col = some (53/10) := by
  simp only [xColScore, hmin, hmax]
  have h1 : ¬ (finiteVals col).length < 3 := by omega
  have h2 : ¬ ((180:ℚ) - 0 < 1/1000000) := by norm_num
  rw [if_neg h1, if_neg h2]
  have hdlen : (diffsQ (finiteVals col)).length = (finiteVals col).length - 1 :=
    diffsQ_length _
  have hdne : (diffsQ (finiteVals col)).length ≠ 0 := by omega
  have hcount : (diffsQ (finiteVals col)).countP (fun d => -1/100000000 ≤ d)
      = (diffsQ (finiteVals col)).length := by
    rw [List.countP_eq_length]
    intro d hd
    have := chain'_diffs_pos hch d hd
    simp only [decide_eq_true_eq]
    linarith
  have hinc : ((diffsQ (finiteVals col)).countP (fun d => -1/100000000 ≤ d) : ℚ) /
      (diffsQ (finiteVals col)).length = 1 := by
    rw [hcount]
    exact div_self (by exact_mod_cast hdne)
  have hdec : ((diffsQ (finiteVals col)).countP (fun d => d ≤ 1/100000000) : ℚ) /
      (diffsQ (finiteVals col)).length ≤ 1 :=
    natDiv_le_one (List.countP_le_length _)
  rw [if_pos hdne, hinc, max_eq_left hdec, headerScoreQ_theta]
  norm_num

/-- Claim C1, counterexample: with an expected-range hint supplied that does
not match the angular span ([0,1] here), the closeness penalty on the
full-range `Theta_r` column (−88.5) overwhelms its header bonus, and the
monotone `S11` column wins instead — even though the table satisfies all
of the claim's hypotheses (3 rows, `Theta_r` strictly increasing from 0
to 180, the other column headered `S11`). -/
theorem axisSelect_theta_cex :
    selectXColumn none
      [[PFloat.finite 0, PFloat.finite 90, PFloat.finite 180],
        [PFloat.finite 0, PFloat.finite (1/2), PFloat.finite 1]]
      ["Theta_r", "S11"] (some 0) (some 1) = 1 ∧
    List.Chain' (· < ·) (finiteVals (colAt
      [[PFloat.finite 0, PFloat.finite 90, PFloat.finite 180],
        [PFloat.finite 0, PFloat.finite (1/2), PFloat.finite 1]] 0)) ∧
    listMin (finiteVals (colAt
      [[PFloat.finite 0, PFloat.finite 90, PFloat.finite 180],
        [PFloat.finite 0, PFloat.finite (1/2), PFloat.finite 1]] 0)) = 0 ∧
    listMax (finiteVals (colAt
      [[PFloat.finite 0, PFloat.finite 90, PFloat.finite 180],
        [PFloat.finite 0, PFloat.finite (1/2), PFloat.finite 1]] 0)) = 180 := by
  refine ⟨?_, ?_, ?_, ?_⟩
  · norm_num +decide [selectXColumn, selectXAuto, xColScore, pickBest, pickBestAux,
      colAt, headerAt, normHeader, headerScoreQ, finiteVals, listMin, listMax, diffsQ,
      List.range_succ, max_def, min_def, List.filterMap_cons, List.filterMap_nil]
  · norm_num [finiteVals, colAt, List.chain'_cons, List.filterMap_cons, List.filterMap_nil]
  · norm_num [finiteVals, colAt, listMin, List.filterMap_cons, List.filterMap_nil, min_def]
  · norm_num [finiteVals, colAt, listMax, List.filterMap_cons, List.filterMap_nil, max_def]

/-- Claim C1, amended (no expected-range hint): if column `j` is strictly
increasing from 0 to 180 over at least 3 finite values and headered
`Theta_r`, and every other column is headered `Phi` or `S11`, the axis
heuristic selects `j`, whatever its position. -/
theorem axisSelect_theta_amended (cols : Table) (hdrs : List String) (j : ℕ)
    (hj : j < cols.length)
    (hhj : hdrs.get? j = some "Theta_r")
    (hoth : ∀ i, i < cols.length → i ≠ j →
      hdrs.get? i = some "Phi" ∨ hdrs.get? i = some "S11")
    (hch : List.Chain' (· < ·) (finiteVals (colAt cols j)))
    (hlen : 3 ≤ (finiteVals (colAt cols j)).length)
    (hmin : listMin (finiteVals (colAt cols j)) = 0)
    (hmax : listMax (finiteVals (colAt cols j)) = 180) :
    selectXColumn none cols hdrs none none = j := by
  have hhdj : headerAt hdrs j = "theta_r" := by
    rw [headerAt, List.get?_map, hhj]
    decide
  have hm : ((List.range cols.length).map fun i =>
      xColScore none none (headerAt hdrs i) (colAt cols i)).get? j
      = some (some (53/10)) := by
    rw [List.get?_map, List.get?_range hj, Option.map_some', hhdj]
    rw [xColScore_theta hch hlen hmin hmax]
  have hall : ∀ k t, k ≠ j →
      ((List.range cols.length).map fun i =>
        xColScore none none (headerAt hdrs i) (colAt cols i)).get? k
        = some (some t) → t < 53/10 := by
    intro k t hk hkt
    by_cases hklt : k < cols.length
    · rw [List.get?_map, List.get?_range hklt, Option.map_some'] at hkt
      have hfk : xColScore none none (headerAt hdrs k) (colAt cols k) = some t := by
        exact Option.some.injEq .. ▸ hkt
      have hb := xColScore_le (Option.some.inj hkt)
      rcases hoth k hklt hk with hph | hs11
      · have : headerAt hdrs k = "phi" := by
          rw [headerAt, List.get?_map, hph]; decide
        rw [this, headerScoreQ_phi] at hb
        linarith
      · have : headerAt hdrs k = "s11" := by
          rw [headerAt, List.get?_map, hs11]; decide
        rw [this, headerScoreQ_s11] at hb
        linarith
    · rw [List.get?_map, List.get?_eq_none.mpr (by simpa using Nat.le_of_not_lt hklt)]
        at hkt
      cases hkt
  have hpick : pickBest ((List.range cols.length).map fun i =>
      xColScore none none (headerAt hdrs i) (colAt cols i)) = some j :=
    pickBest_eq _ j (53/10) hm hall
  simp only [selectXColumn, selectXAuto, hpick]

/-- Claim C1 amended witness: `Theta_r` in first position beats an `S11`
noise column, with no hint supplied. -/
theorem axisSelect_theta_amended_witness :
    selectXColumn none
      [[PFloat.finite 0, PFloat.finite 90, PFloat.finite 180],
        [PFloat.finite 5, PFloat.finite 1, PFloat.finite 4]]
      ["Theta_r", "S11"] none none = 0 := by
  apply axisSelect_theta_amended
  · norm_num
  · rfl
  · intro i hi hne
    have h2 : i < 2 := by simpa using hi
    have h1 : i = 1 := by omega
    subst h1
    exact Or.inr rfl
  · norm_num [finiteVals, colAt, List.chain'_cons, List.filterMap_cons, List.filterMap_nil]
  · norm_num [finiteVals, colAt, List.filterMap_cons, List.filterMap_nil]
  · norm_num [finiteVals, colAt, listMin, List.filterMap_cons, List.filterMap_nil, min_def]
  · norm_num [finiteVals, colAt, listMax, List.filterMap_cons, List.filterMap_nil, max_def]

/-! ## Structure of the measurement-column selection -/

theorem mem_insertDesc {p x : ℕ × ℚ} :
    ∀ {l : List (ℕ × ℚ)}, p ∈ insertDesc x l ↔ p = x ∨ p ∈ l := by
  intro l
  induction l with
  | nil => simp [insertDesc]
  | cons y ys ih =>
    simp only [insertDesc]
    by_cases hc : y.2 < x.2
    · rw [if_pos hc]
      simp [List.mem_cons]
    · rw [if_neg hc]
      simp only [List.mem_cons, ih]
      tauto

theorem mem_sortDescBy {p : ℕ × ℚ} :
    ∀ {l : List (ℕ × ℚ)}, p ∈ sortDescBy l ↔ p ∈ l := by
  intro l
  induction l with
  | nil => simp [sortDescBy]
  | cons y ys ih =>
    simp only [sortDescBy, mem_insertDesc, List.mem_cons, ih]

/-- What survival of the candidate filter means: right index, not the
axis, at least 2 shared finite rows, not a near-duplicate of the axis,
enough spread, and no geometry keyword in the header. -/
theorem measureCandidate_props {cols : Table} {hdrs : List String} {xIdx idx : ℕ}
    {p : ℕ × ℚ} (h : measureCandidate cols hdrs xIdx idx = some p) :
    p.1 = idx ∧ idx ≠ xIdx ∧
      2 ≤ (jointFinite (colAt cols xIdx) (colAt cols idx)).length ∧
      allCloseQ ((jointFinite (colAt cols xIdx) (colAt cols idx)).map Prod.snd)
        ((jointFinite (colAt cols xIdx) (colAt cols idx)).map Prod.fst) = false ∧
      geomHit (headerAt hdrs idx) = false := by
  simp only [measureCandidate] at h
  by_cases h1 : idx = xIdx
  · rw [if_pos h1] at h; cases h
  · rw [if_neg h1] at h
    by_cases h2 : (jointFinite (colAt cols xIdx) (colAt cols idx)).length < 2
    · rw [if_pos h2] at h; cases h
    · rw [if_neg h2] at h
      by_cases h3 : allCloseQ ((jointFinite (colAt cols xIdx) (colAt cols idx)).map Prod.snd)
          ((jointFinite (colAt cols xIdx) (colAt cols idx)).map Prod.fst) = true
      · rw [if_pos h3] at h; cases h
      · rw [if_neg h3] at h
        by_cases h4 : listMax ((jointFinite (colAt cols xIdx) (colAt cols idx)).map Prod.snd)
            - listMin ((jointFinite (colAt cols xIdx) (colAt cols idx)).map Prod.snd)
            < 1/1000000000000
        · rw [if_pos h4] at h; cases h
        · rw [if_neg h4] at h
          by_cases h5 : geomHit (headerAt hdrs idx) = true
          · rw [if_pos h5] at h; cases h
          · rw [if_neg h5] at h
            cases h
            exact ⟨rfl, h1, Nat.le_of_not_lt h2, Bool.not_eq_true _ ▸ h3,
              Bool.not_eq_true _ ▸ h5⟩

/-- Every selected measurement index either survived the candidate
filter, or is the fallback column taken because no candidate survived
(and in either case it differs from the axis index). -/
theorem mem_selectMeasureAuto {cols : Table} {hdrs : List String} {xIdx i : ℕ}
    (h : i ∈ selectMeasureAuto cols hdrs xIdx) :
    (∃ v, measureCandidate cols hdrs xIdx i = some (i, v)) ∨
      (measureCandidates cols hdrs xIdx = [] ∧ i ≠ xIdx) := by
  simp only [selectMeasureAuto] at h
  by_cases hc : (measureCandidates cols hdrs xIdx).isEmpty
  · rw [if_pos hc] at h
    right
    refine ⟨List.isEmpty_iff.mp hc, ?_⟩
    rw [fallbackList] at h
    by_cases hg : fallbackIdx cols.length xIdx < cols.length ∧
        fallbackIdx cols.length xIdx ≠ xIdx
    · rw [if_pos hg] at h
      simp only [sortDescBy, insertDesc, List.map_cons, List.map_nil,
        List.mem_cons, List.not_mem_nil, or_false] at h
      rw [h]
      exact hg.2
    · rw [if_neg hg] at h
      simp [sortDescBy] at h
  · rw [if_neg hc] at h
    left
    rw [List.mem_map] at h
    obtain ⟨p, hp, hpi⟩ := h
    rw [mem_sortDescBy] at hp
    rw [measureCandidates, List.mem_filterMap] at hp
    obtain ⟨a, _, ha⟩ := hp
    have hprops := measureCandidate_props ha
    have hai : a = i := by rw [← hpi, hprops.1]
    subst hai
    refine ⟨p.2, ?_⟩
    rw [ha]
    congr 1
    rw [← hpi]

/-- Claim C2, counterexample: a varying, non-duplicate column headered `phi`
is excluded from the candidates, but since nothing else survives, the
fallback returns that very geometry column. -/
theorem measureSelect_geom_cex :
    selectMeasureColumns none
      [[PFloat.finite 0, PFloat.finite 1, PFloat.finite 2],
        [PFloat.finite 5, PFloat.finite 6, PFloat.finite 7]]
      ["theta_r", "phi"] 0 = [1] ∧
    geomHit (headerAt ["theta_r", "phi"] 1) = true := by
  constructor
  · norm_num +decide [selectMeasureColumns, selectMeasureAuto, measureCandidates,
      measureCandidate, jointFinite, jointCell, allCloseQ, geomHit, colAt, headerAt,
      normHeader, listMin, listMax, listVar, listMean, finiteVals, sortDescBy,
      insertDesc, List.range_succ, max_def, min_def, List.filterMap_cons,
      List.filterMap_nil]
  · decide

/-- Claim C2, amended: a geometry-keyword column is never among the scored
candidates; it can be selected only through the last-column fallback,
i.e. only when the candidate list is empty. -/
theorem measureSelect_geom_amended (cols : Table) (hdrs : List String) (xIdx i : ℕ)
    (hmem : i ∈ selectMeasureColumns none cols hdrs xIdx)
    (hgeom : geomHit (headerAt hdrs i) = true) :
    measureCandidates cols hdrs xIdx = [] ∧ i ≠ xIdx := by
  rcases mem_selectMeasureAuto hmem with ⟨v, hv⟩ | hfb
  · have := (measureCandidate_props hv).2.2.2.2
    rw [hgeom] at this
    cases this
  · exact hfb

/-- Claim C3, counterexample: a column whose values equal the axis column's
exactly is excluded from the candidates, but the fallback then returns
that duplicate column. -/
theorem measureSelect_dup_cex :
    selectXColumn none
      [[PFloat.finite 0, PFloat.finite 1, PFloat.finite 2],
        [PFloat.finite 0, PFloat.finite 1, PFloat.finite 2]] [] none none = 0 ∧
    selectMeasureColumns none
      [[PFloat.finite 0, PFloat.finite 1, PFloat.finite 2],
        [PFloat.finite 0, PFloat.finite 1, PFloat.finite 2]] [] 0 = [1] ∧
    colAt [[PFloat.finite 0, PFloat.finite 1, PFloat.finite 2],
        [PFloat.finite 0, PFloat.finite 1, PFloat.finite 2]] 1 =
      colAt [[PFloat.finite 0, PFloat.finite 1, PFloat.finite 2],
        [PFloat.finite 0, PFloat.finite 1, PFloat.finite 2]] 0 := by
  refine ⟨?_, ?_, by decide⟩
  · norm_num +decide [selectXColumn, selectXAuto, xColScore, pickBest, pickBestAux,
      colAt, headerAt, normHeader, headerScoreQ, finiteVals, listMin, listMax, diffsQ,
      List.range_succ, max_def, min_def, List.filterMap_cons, List.filterMap_nil]
  · norm_num +decide [selectMeasureColumns, selectMeasureAuto, measureCandidates,
      measureCandidate, jointFinite, jointCell, allCloseQ, geomHit, colAt, headerAt,
      normHeader, listMin, listMax, listVar, listMean, finiteVals, sortDescBy,
      insertDesc, List.range_succ, max_def, min_def, List.filterMap_cons,
      List.filterMap_nil]

/-- Claim C3, amended: a column numerically indistinguishable from the axis
(over at least 2 shared finite rows) is never among the scored
candidates; it can be selected only through the last-column fallback,
i.e. only when the candidate list is empty. -/
theorem measureSelect_dup_amended (cols : Table) (hdrs : List String) (xIdx i : ℕ)
    (hmem : i ∈ selectMeasureColumns none cols hdrs xIdx)
    (hclose : allCloseQ ((jointFinite (colAt cols xIdx) (colAt cols i)).map Prod.snd)
      ((jointFinite (colAt cols xIdx) (colAt cols i)).map Prod.fst) = true)
    (_hrows : 2 ≤ (jointFinite (colAt cols xIdx) (colAt cols i)).length) :
    measureCandidates cols hdrs xIdx = [] ∧ i ≠ xIdx := by
  rcases mem_selectMeasureAuto hmem with ⟨v, hv⟩ | hfb
  · have := (measureCandidate_props hv).2.2.2.1
    rw [hclose] at this
    cases this
  · exact hfb

/-- Claim C2 amended witness: the geometry-headered fallback selection above
indeed happened with an empty candidate list. -/
theorem measureSelect_geom_amended_witness :
    measureCandidates
      [[PFloat.finite 0, PFloat.finite 1, PFloat.finite 2],
        [PFloat.finite 5, PFloat.finite 6, PFloat.finite 7]]
      ["theta_r", "phi"] 0 = [] ∧ (1 : ℕ) ≠ 0 :=
  measureSelect_geom_amended _ _ 0 1
    (by norm_num +decide [selectMeasureColumns, selectMeasureAuto, measureCandidates,
      measureCandidate, jointFinite, jointCell, allCloseQ, geomHit, colAt, headerAt,
      normHeader, listMin, listMax, listVar, listMean, finiteVals, sortDescBy,
      insertDesc, fallbackList, fallbackIdx, List.range_succ, max_def, min_def,
      List.filterMap_cons, List.filterMap_nil])
    (by decide)

/-- Claim C3 amended witness: the duplicate-column fallback selection above
indeed happened with an empty candidate list. -/
theorem measureSelect_dup_amended_witness :
    measureCandidates
      [[PFloat.finite 0, PFloat.finite 1, PFloat.finite 2],
        [PFloat.finite 0, PFloat.finite 1, PFloat.finite 2]] [] 0 = [] ∧ (1 : ℕ) ≠ 0 :=
  measureSelect_dup_amended _ _ 0 1
    (by norm_num +decide [selectMeasureColumns, selectMeasureAuto, measureCandidates,
      measureCandidate, jointFinite, jointCell, allCloseQ, geomHit, colAt, headerAt,
      normHeader, listMin, listMax, listVar, listMean, finiteVals, sortDescBy,
      insertDesc, fallbackList, fallbackIdx, List.range_succ, max_def, min_def,
      List.filterMap_cons, List.filterMap_nil])
    (by norm_num [jointFinite, jointCell, colAt, allCloseQ, List.filterMap_cons,
      List.filterMap_nil])
    (by decide)

/-- Claim C10. A one-column table always fails `plot_csv` with the
no-measurement-columns error: the single column becomes the axis, and
the measurement selection (candidates and fallback alike) never returns
the axis column, so the measurement set is empty. -/
theorem singleColumn_no_measure :
    (∀ (cols : Table) (hdrs : List String) (expS expE : Option ℚ),
      cols.length = 1 →
        plotSelect none none cols hdrs expS expE =
          Except.error "No measurement columns available for plotting.") ∧
    (∀ (cols : Table) (hdrs : List String) (xIdx : ℕ),
      xIdx ∉ selectMeasureColumns none cols hdrs xIdx) := by
  have hnotmem : ∀ (cols : Table) (hdrs : List String) (xIdx : ℕ),
      xIdx ∉ selectMeasureColumns none cols hdrs xIdx := by
    intro cols hdrs xIdx hmem
    rcases mem_selectMeasureAuto hmem with ⟨v, hv⟩ | ⟨_, hne⟩
    · exact (measureCandidate_props hv).2.1 rfl
    · exact hne rfl
  refine ⟨?_, hnotmem⟩
  intro cols hdrs expS expE hlen
  obtain ⟨c, hc⟩ : ∃ c, cols = [c] := by
    cases cols with
    | nil => simp at hlen
    | cons c rest =>
      cases rest with
      | nil => exact ⟨c, rfl⟩
      | cons _ _ => simp at hlen
  subst hc
  have hx : selectXColumn none [c] hdrs expS expE = 0 := by
    simp only [selectXColumn, selectXAuto]
    cases hf0 : xColScore expS expE (headerAt hdrs 0) (colAt [c] 0) with
    | none => simp [List.range_succ, List.range_zero, pickBest, pickBestAux, hf0]
    | some s => simp [List.range_succ, List.range_zero, pickBest, pickBestAux, hf0]
  have hms : selectMeasureColumns none [c] hdrs 0 = [] := by
    simp [selectMeasureColumns, selectMeasureAuto, measureCandidates, measureCandidate,
      fallbackList, fallbackIdx, sortDescBy, List.range_succ, List.range_zero]
  simp only [plotSelect, hx, hms]
  rfl

/-- Claim C10 witness: a concrete one-column table, through
`singleColumn_no_measure`. -/
theorem singleColumn_no_measure_witness :
    plotSelect none none [[PFloat.finite 1, PFloat.finite 2]] [] none none =
      Except.error "No measurement columns available for plotting." :=
  singleColumn_no_measure.1 [[PFloat.finite 1, PFloat.finite 2]] [] none none (by decide)

/-! ## The semilog decision -/

theorem le_foldl_min {c : ℚ} :
    ∀ (xs : List ℚ) (a : ℚ), c ≤ xs.foldl min a ↔ c ≤ a ∧ ∀ v ∈ xs, c ≤ v := by
  intro xs
  induction xs with
  | nil => simp
  | cons x t ih =>
    intro a
    simp only [List.foldl_cons, ih, le_min_iff, List.mem_cons]
    constructor
    · rintro ⟨⟨ha, hx⟩, hall⟩
      exact ⟨ha, fun v hv => hv.elim (fun he => he ▸ hx) (hall v)⟩
    · rintro ⟨ha, hall⟩
      exact ⟨⟨ha, hall x (Or.inl rfl)⟩, fun v hv => hall v (Or.inr hv)⟩

theorem le_listMin_iff {c : ℚ} {l : List ℚ} (hne : l ≠ []) :
    c ≤ listMin l ↔ ∀ v ∈ l, c ≤ v := by
  cases l with
  | nil => exact absurd rfl hne
  | cons x t =>
    simp only [listMin, le_foldl_min, List.mem_cons]
    constructor
    · rintro ⟨hx, hall⟩
      exact fun v hv => hv.elim (fun he => he ▸ hx) (hall v)
    · intro hall
      exact ⟨hall x (Or.inl rfl), fun v hv => hall v (Or.inr hv)⟩

/-- Claim C4, amended: with a semilog request, the y-axis is logarithmic iff
at least one selected column has a shared finite row with the axis and
every selected column's positive fraction — computed over the rows where
both the axis and that column are finite, ignoring columns with no such
row — is at least 0.7.  Without a semilog request it is always linear. -/
theorem semilog_decision_amended (cols : Table) (xIdx : ℕ) (ms : List ℕ) :
    useSemilogy false cols xIdx ms = false ∧
    (useSemilogy true cols xIdx ms = true ↔
      ((∃ i ∈ ms, positiveScore (colAt cols xIdx) (colAt cols i) ≠ none) ∧
        (∀ i ∈ ms, ∀ s, positiveScore (colAt cols xIdx) (colAt cols i) = some s →
          7/10 ≤ s))) := by
  constructor
  · simp [useSemilogy]
  · simp only [useSemilogy, Bool.true_and, Bool.and_eq_true, decide_eq_true_eq,
      List.isEmpty_eq_false_iff_exists_mem, Bool.not_eq_true']
    constructor
    · rintro ⟨hne, hmin⟩
      have hne' : ms.filterMap (fun i => positiveScore (colAt cols xIdx) (colAt cols i))
          ≠ [] := by
        intro hempty
        rw [hempty] at hne
        simp [List.isEmpty_nil] at hne
      constructor
      · obtain ⟨s, hs⟩ := List.exists_mem_of_ne_nil _ hne'
        rw [List.mem_filterMap] at hs
        obtain ⟨i, hi, hfi⟩ := hs
        exact ⟨i, hi, by rw [hfi]; exact Option.some_ne_none s⟩
      · intro i hi s hs
        have hmem : s ∈ ms.filterMap
            (fun i => positiveScore (colAt cols xIdx) (colAt cols i)) := by
          rw [List.mem_filterMap]
          exact ⟨i, hi, hs⟩
        exact (le_listMin_iff hne').mp hmin s hmem
    · rintro ⟨⟨i, hi, hne⟩, hall⟩
      have hsome : ∃ s, positiveScore (colAt cols xIdx) (colAt cols i) = some s := by
        cases hps : positiveScore (colAt cols xIdx) (colAt cols i) with
        | none => exact absurd hps hne
        | some s => exact ⟨s, rfl⟩
      obtain ⟨s, hs⟩ := hsome
      have hmem : s ∈ ms.filterMap
          (fun i => positiveScore (colAt cols xIdx) (colAt cols i)) := by
        rw [List.mem_filterMap]
        exact ⟨i, hi, hs⟩
      have hne' : ms.filterMap (fun i => positiveScore (colAt cols xIdx) (colAt cols i))
          ≠ [] := List.ne_nil_of_mem hmem
      refine ⟨?_, ?_⟩
      · exact ⟨s, hmem⟩
      · rw [le_listMin_iff hne']
        intro v hv
        rw [List.mem_filterMap] at hv
        obtain ⟨j, hj, hfj⟩ := hv
        exact hall j hj v hfj

/-- Claim C4, counterexample: the measurement column has only 50% of its
finite values positive (3 of 6), yet the code chooses the logarithmic
scale because the positive fraction is computed only over rows where the
axis is also finite (rows 0-2, all positive there). -/
theorem semilog_decision_cex :
    plotSelect none none
      [[PFloat.finite 0, PFloat.finite 1, PFloat.finite 2,
          PFloat.nan, PFloat.nan, PFloat.nan],
        [PFloat.finite 1, PFloat.finite 2, PFloat.finite 3,
          PFloat.finite (-1), PFloat.finite (-1), PFloat.finite (-1)]]
      [] none none = Except.ok (0, [1]) ∧
    useSemilogy true
      [[PFloat.finite 0, PFloat.finite 1, PFloat.finite 2,
          PFloat.nan, PFloat.nan, PFloat.nan],
        [PFloat.finite 1, PFloat.finite 2, PFloat.finite 3,
          PFloat.finite (-1), PFloat.finite (-1), PFloat.finite (-1)]] 0 [1] = true ∧
    finitePosFrac (colAt
      [[PFloat.finite 0, PFloat.finite 1, PFloat.finite 2,
          PFloat.nan, PFloat.nan, PFloat.nan],
        [PFloat.finite 1, PFloat.finite 2, PFloat.finite 3,
          PFloat.finite (-1), PFloat.finite (-1), PFloat.finite (-1)]] 1) = 1/2 ∧
    (1/2 : ℚ) < 7/10 := by
  refine ⟨?_, ?_, ?_, by norm_num⟩
  · norm_num +decide [plotSelect, selectXColumn, selectXAuto, xColScore, pickBest,
      pickBestAux, selectMeasureColumns, selectMeasureAuto, measureCandidates,
      measureCandidate, jointFinite, jointCell, allCloseQ, geomHit, colAt, headerAt,
      normHeader, headerScoreQ, finiteVals, listMin, listMax, listVar, listMean,
      diffsQ, sortDescBy, insertDesc, fallbackList, fallbackIdx, List.range_succ,
      max_def, min_def, List.filterMap_cons, List.filterMap_nil]
  · norm_num +decide [useSemilogy, positiveScore, jointFinite, jointCell, colAt,
      listMin, List.filterMap_cons, List.filterMap_nil, min_def]
  · norm_num +decide [finitePosFrac, finiteVals, colAt, List.filterMap_cons,
      List.filterMap_nil]

/-- Claim C4 amended witness: a column with a 4-of-5 (80%) positive fraction
on the shared finite rows yields the logarithmic scale, through
`semilog_decision_amended`. -/
theorem semilog_decision_amended_witness :
    useSemilogy true
      [[PFloat.finite 0, PFloat.finite 1, PFloat.finite 2, PFloat.finite 3,
          PFloat.finite 4],
        [PFloat.finite 1, PFloat.finite 2, PFloat.finite 3, PFloat.finite 4,
          PFloat.finite (-1)]] 0 [1] = true := by
  refine (semilog_decision_amended
    [[PFloat.finite 0, PFloat.finite 1, PFloat.finite 2, PFloat.finite 3,
        PFloat.finite 4],
      [PFloat.finite 1, PFloat.finite 2, PFloat.finite 3, PFloat.finite 4,
        PFloat.finite (-1)]] 0 [1]).2.mpr ⟨⟨1, by decide, by decide⟩, ?_⟩
  intro i hi s hs
  have hi1 : i = 1 := by simpa using hi
  subst hi1
  have : s = 4/5 := by
    rw [show positiveScore
        (colAt [[PFloat.finite 0, PFloat.finite 1, PFloat.finite 2, PFloat.finite 3,
          PFloat.finite 4],
          [PFloat.finite 1, PFloat.finite 2, PFloat.finite 3, PFloat.finite 4,
            PFloat.finite (-1)]] 0)
        (colAt [[PFloat.finite 0, PFloat.finite 1, PFloat.finite 2, PFloat.finite 3,
          PFloat.finite 4],
          [PFloat.finite 1, PFloat.finite 2, PFloat.finite 3, PFloat.finite 4,
            PFloat.finite (-1)]] 1) = some (4/5) by
      norm_num +decide [positiveScore, jointFinite, jointCell, colAt,
        List.filterMap_cons, List.filterMap_nil]] at hs
    exact (Option.some.inj hs).symm
  subst this
  norm_num

/-! ## CSV round-trip: tokenization of a comma-joined row -/

theorem dropWhile_eq_self_of {p : Char → Bool} {l : List Char}
    (h : ∀ c ∈ l, p c = false) : l.dropWhile p = l := by
  cases l with
  | nil => rfl
  | cons c t => rw [List.dropWhile_cons_of_neg (by simp [h c (by simp)])]

theorem stripChars_eq_self {l : List Char}
    (h : ∀ c ∈ l, c.isWhitespace = false) : stripChars l = l := by
  rw [stripChars, dropWhile_eq_self_of h, dropWhile_eq_self_of
    (fun c hc => h c (List.mem_reverse.mp hc)), List.reverse_reverse]

theorem splitToksAux_nonsep :
    ∀ (t rest acc : List Char), (∀ c ∈ t, isSepC c = false) →
      splitToksAux (t ++ rest) acc = splitToksAux rest (t.reverse ++ acc) := by
  intro t
  induction t with
  | nil => intro rest acc _; simp
  | cons c t' ih =>
    intro rest acc h
    have hc : isSepC c = false := h c (by simp)
    have hstep : splitToksAux ((c :: t') ++ rest) acc
        = splitToksAux (t' ++ rest) (c :: acc) := by
      show splitToksAux (c :: (t' ++ rest)) acc = _
      simp only [splitToksAux, hc, Bool.false_eq_true, if_false]
    rw [hstep, ih rest (c :: acc) (fun d hd => h d (by simp [hd]))]
    simp

theorem splitToks_joinCommas :
    ∀ (toks : List (List Char)),
      (∀ t ∈ toks, t ≠ [] ∧ ∀ c ∈ t, isSepC c = false) →
      splitToks (joinCommas toks) = toks := by
  intro toks
  induction toks with
  | nil => intro _; rfl
  | cons t ts ih =>
    intro h
    obtain ⟨htne, htsep⟩ := h t (by simp)
    have hrevne : t.reverse.isEmpty = false := by
      cases ht : t.reverse with
      | nil => exact absurd (by simpa using ht) htne
      | cons _ _ => rfl
    cases ts with
    | nil =>
      show splitToksAux (joinCommas [t]) [] = [t]
      have : joinCommas [t] = t ++ [] := by simp [joinCommas]
      rw [this, splitToksAux_nonsep t [] [] htsep]
      simp only [List.append_nil, splitToksAux, hrevne, Bool.false_eq_true, if_false]
      simp
    | cons t' ts' =>
      show splitToksAux (joinCommas (t :: t' :: ts')) [] = t :: t' :: ts'
      have hj : joinCommas (t :: t' :: ts') = t ++ ',' :: joinCommas (t' :: ts') := rfl
      rw [hj, splitToksAux_nonsep t (',' :: joinCommas (t' :: ts')) [] htsep]
      simp only [List.append_nil, splitToksAux, show isSepC ',' = true from rfl,
        if_true, hrevne, Bool.false_eq_true, if_false, List.reverse_reverse]
      congr 1
      exact ih (fun u hu => h u (by simp [hu]))

theorem mem_joinCommas {c : Char} :
    ∀ {ts : List (List Char)}, c ∈ joinCommas ts → (∃ t ∈ ts, c ∈ t) ∨ c = ',' := by
  intro ts
  induction ts with
  | nil => intro h; simp [joinCommas] at h
  | cons t ts' ih =>
    intro h
    cases ts' with
    | nil =>
      left
      exact ⟨t, by simp, by simpa [joinCommas] using h⟩
    | cons u us =>
      rw [show joinCommas (t :: u :: us) = t ++ ',' :: joinCommas (u :: us) from rfl,
        List.mem_append, List.mem_cons] at h
      rcases h with h | h | h
      · exact Or.inl ⟨t, by simp, h⟩
      · exact Or.inr h
      · rcases ih h with ⟨w, hw, hcw⟩ | h'
        · exact Or.inl ⟨w, by simp [hw], hcw⟩
        · exact Or.inr h'

theorem head?_joinCommas {t : List Char} (ts : List (List Char)) (h : t ≠ []) :
    (joinCommas (t :: ts)).head? = t.head? := by
  cases t with
  | nil => exact absurd rfl h
  | cons c t' =>
    cases ts with
    | nil => rfl
    | cons u us => rfl

/-- A CSV line written for a nonempty row of cleanly serialized values
parses back to exactly that row. -/
theorem lineRow_csvLine {pf : List Char → Option PFloat}
    {serialize : PFloat → List Char} {row : List PFloat} (hne : row ≠ [])
    (hchars : ∀ v ∈ row, serialize v ≠ [] ∧
      (∀ c ∈ serialize v, isSepC c = false ∧ c ≠ '#') ∧
      pf (cleanTokC (serialize v)) = some v) :
    lineRow pf (csvLineChars serialize row) = some row := by
  have hline : csvLineChars serialize row = joinCommas (row.map serialize) := rfl
  have hmemchars : ∀ c ∈ joinCommas (row.map serialize),
      c.isWhitespace = false := by
    intro c hc
    rcases mem_joinCommas hc with ⟨t, ht, hct⟩ | hcomma
    · rw [List.mem_map] at ht
      obtain ⟨v, hv, hvt⟩ := ht
      have := ((hchars v hv).2.1 c (hvt ▸ hct)).1
      simp only [isSepC, Bool.or_eq_false_iff] at this
      exact this.1
    · subst hcomma; rfl
  have hstrip : stripChars (joinCommas (row.map serialize)) =
      joinCommas (row.map serialize) := stripChars_eq_self hmemchars
  obtain ⟨v0, row', hrow0⟩ : ∃ v0 row', row = v0 :: row' := by
    cases row with
    | nil => exact absurd rfl hne
    | cons v0 row' => exact ⟨v0, row', rfl⟩
  have hmapne : row.map serialize = serialize v0 :: row'.map serialize := by
    rw [hrow0]; rfl
  have hv0ne : serialize v0 ≠ [] := (hchars v0 (by rw [hrow0]; simp)).1
  have hlinene : joinCommas (row.map serialize) ≠ [] := by
    rw [hmapne]
    cases hsv : serialize v0 with
    | nil => exact absurd hsv hv0ne
    | cons c cs =>
      cases row'.map serialize with
      | nil => simp [joinCommas, hsv]
      | cons u us => simp [joinCommas, hsv]
  have hhead : (joinCommas (row.map serialize)).head? ≠ some '#' := by
    rw [hmapne, head?_joinCommas _ hv0ne]
    cases hsv : serialize v0 with
    | nil => exact absurd hsv hv0ne
    | cons c cs =>
      have hcne : c ≠ '#' :=
        ((hchars v0 (by rw [hrow0]; simp)).2.1 c (by rw [hsv]; simp)).2
      simp only [List.head?_cons, ne_eq, Option.some.injEq]
      exact hcne
  have htoks : splitToks (stripChars (joinCommas (row.map serialize))) =
      row.map serialize := by
    rw [hstrip]
    apply splitToks_joinCommas
    intro t ht
    rw [List.mem_map] at ht
    obtain ⟨v, hv, hvt⟩ := ht
    exact ⟨hvt ▸ (hchars v hv).1, fun c hc => (hchars v hv |>.2.1 c (hvt ▸ hc)).1⟩
  have hmapOpt : mapOpt (fun t => pf (cleanTokC t)) (row.map serialize) = some row :=
    mapOpt_map_of_pointwise (fun v hv => (hchars v hv).2.2)
  have htoks' : splitToks (joinCommas (row.map serialize)) = row.map serialize := by
    rw [← hstrip]; exact htoks
  have h1 : (joinCommas (row.map serialize)).isEmpty = false := by
    simpa [List.isEmpty_iff] using hlinene
  have h2 : ((joinCommas (row.map serialize)).head? == some '#') = false := by
    simpa using hhead
  have h3 : (row.map serialize).isEmpty = false := by
    rw [hmapne]; rfl
  have h4 : ((row.map serialize).all fun t => (pf (cleanTokC t)).isSome) = true := by
    rw [← mapOpt_isSome, hmapOpt]; rfl
  have hspec : specNumericLine pf (csvLineChars serialize row) = true := by
    rw [specNumericLine, hline]
    simp only [hstrip, htoks', h1, h2, h3, h4]
    rfl
  rw [lineRow_eq, if_pos hspec, specRow, hline, hstrip, htoks', hmapOpt,
    Option.getD_some]

/-- Claim C7. Round-trip through persistence: writing the parsed numeric rows
as CSV and re-loading yields a table with the same row count, width
equal to the maximum row length, and every originally present cell
unchanged (shorter rows are only right-padded with the missing marker).
The hypotheses state that the serialization is faithful on the values
present: nonempty, free of separators and the comment marker, and
re-parsed to the same value (Python's `str`/`float` pair satisfies them:
`repr` of a float never contains whitespace, commas, `#`, `D` or `d`,
and `float(repr(v))` recovers `v` exactly). -/
theorem csv_roundtrip (pf : List Char → Option PFloat)
    (serialize : PFloat → List Char) (rows : List (List PFloat))
    (hne : rows ≠ [])
    (hrowne : ∀ r ∈ rows, r ≠ [])
    (hchars : ∀ r ∈ rows, ∀ v ∈ r, serialize v ≠ [] ∧
      (∀ c ∈ serialize v, isSepC c = false ∧ c ≠ '#') ∧
      pf (cleanTokC (serialize v)) = some v) :
    loadNumericTable pf (rows.map (csvLineChars serialize)) =
      some (rows.map (padRow ((rows.map List.length).foldl max 0))) := by
  have hfm : ∀ (rs : List (List PFloat)), (∀ r ∈ rs, r ≠ []) →
      (∀ r ∈ rs, ∀ v ∈ r, serialize v ≠ [] ∧
        (∀ c ∈ serialize v, isSepC c = false ∧ c ≠ '#') ∧
        pf (cleanTokC (serialize v)) = some v) →
      (rs.map (csvLineChars serialize)).filterMap (lineRow pf) = rs := by
    intro rs
    induction rs with
    | nil => intro _ _; rfl
    | cons r rs' ih =>
      intro h1 h2
      rw [List.map_cons, List.filterMap_cons,
        lineRow_csvLine (h1 r (by simp)) (h2 r (by simp)),
        ih (fun r' hr' => h1 r' (by simp [hr']))
          (fun r' hr' => h2 r' (by simp [hr']))]
  rw [loadNumericTable, hfm rows hrowne hchars,
    if_neg (by simpa [List.isEmpty_iff] using hne)]

/-- Claim C7 witness: a ragged two-row table round-trips through CSV text,
with the short row padded. -/
theorem csv_roundtrip_witness :
    loadNumericTable pyFloat
      ([[PFloat.finite 1, PFloat.finite 2], [PFloat.finite 3]].map
        (csvLineChars fun v =>
          match v with
          | PFloat.finite q => if q = 1 then ['1'] else if q = 2 then ['2'] else ['3']
          | _ => ['0'])) =
      some [[PFloat.finite 1, PFloat.finite 2], [PFloat.finite 3, PFloat.nan]] :=
  (csv_roundtrip pyFloat
    (fun v =>
      match v with
      | PFloat.finite q => if q = 1 then ['1'] else if q = 2 then ['2'] else ['3']
      | _ => ['0'])
    [[PFloat.finite 1, PFloat.finite 2], [PFloat.finite 3]]
    (by decide) (by decide) (by decide)).trans (by decide)

/-! ## Error atomicity of the solver run -/

/-- Claim C9. When the solver exits with non-zero status, `run_brdfprog`
returns before writing anything: no stdout capture, no CSV,
`last_csv_path` untouched, and the user-visible message is the error
text carrying the captured stderr verbatim. -/
theorem run_nonzero_exit_atomic (pf : List Char → Option PFloat) (returncode : ℤ)
    (stderrText : String) (stdoutLines : List (List Char)) (csvFilename : String)
    (prevLastCsv : Option String) (hrc : returncode ≠ 0) :
    (runBrdfprogAfterExec pf returncode stderrText stdoutLines csvFilename
        prevLastCsv).csvWritten = none ∧
    (runBrdfprogAfterExec pf returncode stderrText stdoutLines csvFilename
        prevLastCsv).lastCsvPath = prevLastCsv ∧
    (runBrdfprogAfterExec pf returncode stderrText stdoutLines csvFilename
        prevLastCsv).stdoutFileWritten = false ∧
    (runBrdfprogAfterExec pf returncode stderrText stdoutLines csvFilename
        prevLastCsv).message = "[Error] brdfprog failed:\n" ++ stderrText := by
  rw [runBrdfprogAfterExec, if_pos hrc]
  exact ⟨rfl, rfl, rfl, rfl⟩

/-- Claim C9 witness: a concrete failing run (exit status 1) leaves the prior
CSV pointer in place and writes nothing. -/
theorem run_nonzero_exit_atomic_witness :
    (runBrdfprogAfterExec pyFloat 1 "boom" ["1 2".toList] "out.csv"
        (some "old.csv")).csvWritten = none ∧
    (runBrdfprogAfterExec pyFloat 1 "boom" ["1 2".toList] "out.csv"
        (some "old.csv")).lastCsvPath = some "old.csv" ∧
    (runBrdfprogAfterExec pyFloat 1 "boom" ["1 2".toList] "out.csv"
        (some "old.csv")).stdoutFileWritten = false ∧
    (runBrdfprogAfterExec pyFloat 1 "boom" ["1 2".toList] "out.csv"
        (some "old.csv")).message = "[Error] brdfprog failed:\n" ++ "boom" :=
  run_nonzero_exit_atomic pyFloat 1 "boom" ["1 2".toList] "out.csv"
    (some "old.csv") (by decide)

end BrdfGui
